import Mathlib

/-!
Verification of the parallel-map primitive in `src/main.rs`
(`split_comp_work`, `do_comp_work_in_cur_thread`, `do_comp_work_in_some_thread`,
`is_even`).

Shallow embedding notes.

Numeric layer: the source computes the worker count and chunk size via `f64`
arithmetic: `((vector.len() as f64) / (THRESHOLD as f64)).ceil() as i64` and
`((vector.len() as f64) / (num_of_threads as f64)).ceil() as i64`.  We model
IEEE-754 binary64 round-to-nearest-even exactly, on naturals:
- `f64cast n` is the exact integer value of `n as f64` (Rust rounds integer
  to float casts to nearest, ties to even).  For every `n < 2 ^ 64` the result
  of this cast is an integer, since binary64 values of magnitude at least
  `2 ^ 52` are integers, so a natural number represents it exactly.
- `ceilDivF64 a b` is the exact value of `(x / y).ceil() as i64` where `x, y`
  are the binary64 values with exact integer values `a, b` (`1 ≤ b ≤ a`, which
  holds at both call sites on the sharded path).  IEEE division is correctly
  rounded: with `e = floor (log2 (a / b))` the quotient lies in
  `[2 ^ e, 2 ^ (e+1))` where representable values are the multiples of
  `2 ^ (e - 52)`, and `rne` rounds the exact rational quotient to the nearest
  such multiple, ties to even mantissa.  `.ceil()` on a binary64 value is
  exact and its result here is representable, and the `as i64` cast of these
  in-range positive values is exact, so the ceiling is taken exactly.
  (For quotients below 1 the grid used here is coarser than IEEE's, but the
  only such call sites, `n < 8`, produce exactly representable quotients
  `n / 8` and the same results, and that region is routed to the direct
  strategy by `split_comp_work` anyway.)

List layer: vectors are `List`s, the mpsc channel is modelled by the list of
`(index, result)` messages in the canonical order chunk 0, chunk 1, ...;
the theorem for C7 shows the reassembly loop is invariant under every
permutation of that list, so this canonical order is a faithful denotation of
the arbitrary arrival interleaving.  The `usize` addition
`index_of_cur_item + items_per_thread` in the spawn loop is taken mod
`2 ^ 64`, and the panic that the wrapped value causes (`end_index` below
`index_of_cur_item` makes `vector_copy.reserve(end_index - index_of_cur_item)`
and the slice `vector[index_of_cur_item..end_index]` fail) is modelled by
`Option.none`.  `Default::default()` is passed explicitly as `d`.
-/

/-- Fuel-driven floor of log base 2; structural recursion so that the kernel
can evaluate it on literals. -/
def log2floorAux : ℕ → ℕ → ℕ
  | 0, _ => 0
  | fuel + 1, n => if n < 2 then 0 else log2floorAux fuel (n / 2) + 1

/-- Floor of log base 2 of a natural number (0 for inputs 0 and 1). -/
def log2floor (n : ℕ) : ℕ := log2floorAux n n

/-- Round `num / den` to the nearest integer, ties to even (the IEEE-754
default rounding applied to an exact rational with a fixed denominator). -/
def rne (num den : ℕ) : ℕ :=
  if 2 * (num % den) < den then num / den
  else if den < 2 * (num % den) then num / den + 1
  else if (num / den) % 2 = 0 then num / den else num / den + 1

/-- Exact integer value of the Rust cast `n as f64` (`n : usize`):
round to nearest representable binary64, ties to even.  Naturals below
`2 ^ 53` are representable; above, representables in `[2 ^ e, 2 ^ (e+1))`
are the multiples of `2 ^ (e - 52)`. -/
def f64cast (n : ℕ) : ℕ :=
  if log2floor n ≤ 52 then n
  else rne n (2 ^ (log2floor n - 52)) * 2 ^ (log2floor n - 52)

/-- Exact integer value of `(x / y).ceil() as i64` for binary64 values `x, y`
with exact integer values `a, b` where `1 ≤ b ≤ a` (correctly rounded IEEE
division followed by exact ceiling). -/
def ceilDivF64 (a b : ℕ) : ℕ :=
  if log2floor (a / b) ≤ 52 then
    (rne (a * 2 ^ (52 - log2floor (a / b))) b + 2 ^ (52 - log2floor (a / b)) - 1) /
      2 ^ (52 - log2floor (a / b))
  else rne a (b * 2 ^ (log2floor (a / b) - 52)) * 2 ^ (log2floor (a / b) - 52)

/-- `const THRESHOLD: i64 = 8`. -/
def THRESHOLD : ℕ := 8

/-- `const MAX_NUM_OF_THREADS: i64 = 64`. -/
def MAX_NUM_OF_THREADS : ℕ := 64

/-- `let mut num_of_threads: i64 = ((vector.len() as f64) / (THRESHOLD as f64)).ceil() as i64;`
followed by the clamp `if num_of_threads > MAX_NUM_OF_THREADS { num_of_threads = MAX_NUM_OF_THREADS; }`.
The value is a nonnegative `i64` in the source; we carry it as a natural. -/
def num_of_threads (n : ℕ) : ℕ :=
  if ceilDivF64 (f64cast n) (f64cast THRESHOLD) > MAX_NUM_OF_THREADS then MAX_NUM_OF_THREADS
  else ceilDivF64 (f64cast n) (f64cast THRESHOLD)

/-- `let items_per_thread: i64 = ((vector.len() as f64) / (num_of_threads as f64)).ceil() as i64;`
(computed after the clamp; `num_of_threads ≤ 64` so its `as f64` value is exact). -/
def items_per_thread (n : ℕ) : ℕ :=
  ceilDivF64 (f64cast n) (f64cast (num_of_threads n))

section ListModel

variable {T R : Type _}

/-- `do_comp_work_in_cur_thread`: the sequential loop
`for item in vector { result.push(function(item)); }`. -/
def do_comp_work_in_cur_thread (vector : List T) (function : T → R) : List R :=
  vector.foldl (fun result item => result ++ [function item]) []

/-- The `vector_copy` a worker receives: the loop
`for (index, item) in vector[index_of_cur_item..end_index].iter().enumerate()
 { vector_copy.push((index_of_cur_item + index, item.clone())); }`. -/
def chunkPairs (vector : List T) (s e : ℕ) : List (ℕ × T) :=
  List.enumFrom s ((vector.drop s).take (e - s))

/-- The `(index_of_cur_item, end_index)` pairs produced by the spawn loop
`for i in 0..num_of_threads`, with
`end_index = index_of_cur_item + items_per_thread` (a `usize` addition, hence
mod `2 ^ 64`) clamped to `vector.len()`; a wrapped `end_index` below
`index_of_cur_item` makes the source panic on
`vector_copy.reserve(end_index - index_of_cur_item)`, modelled as `none`. -/
def chunkBounds (items n : ℕ) : ℕ → ℕ → Option (List (ℕ × ℕ))
  | 0, _ => some []
  | w + 1, cur =>
    let e0 := (cur + items) % 2 ^ 64
    let e := if e0 > n then n else e0
    if cur ≤ e then (chunkBounds items n w e).map (fun bs => (cur, e) :: bs) else none

/-- `do_comp_work_in_some_thread` in the failure-free regime: the sequence of
`(index, function(item))` messages the worker sends on the channel, in order. -/
def do_comp_work_in_some_thread (vector : List (ℕ × T)) (function : T → R) :
    List (ℕ × R) :=
  vector.map (fun p => (p.1, function p.2))

/-- The list of chunks handed to the spawned workers (one worker per loop
iteration, empty or not). -/
def shardedChunks (vector : List T) : Option (List (List (ℕ × T))) :=
  (chunkBounds (items_per_thread vector.length) vector.length
      (num_of_threads vector.length) 0).map
    (fun bs => bs.map (fun p => chunkPairs vector p.1 p.2))

/-- All `(index, result)` messages sent by the workers, in the canonical order
chunk 0, chunk 1, ...  (C7 proves the reassembly is invariant under every
permutation of this list, so the order is immaterial.) -/
def shardedMsgs (vector : List T) (function : T → R) : Option (List (ℕ × R)) :=
  (shardedChunks vector).map
    (fun cs => (cs.map (fun c => do_comp_work_in_some_thread c function)).flatten)

/-- The receive loop `for received in receiver { result[index] = item; }`. -/
def writeAll (msgs : List (ℕ × R)) (init : List R) : List R :=
  msgs.foldl (fun result m => result.set m.1 m.2) init

/-- The whole sharded path of `split_comp_work`: plan chunks, collect worker
messages, write each into a result array pre-filled with `Default::default()`
(passed explicitly as `d`). -/
def shardedWork (d : R) (vector : List T) (function : T → R) : Option (List R) :=
  (shardedMsgs vector function).map
    (fun ms => writeAll ms (List.replicate vector.length d))

/-- `split_comp_work`: direct strategy when `vector.len() < THRESHOLD`,
sharded strategy otherwise. -/
def split_comp_work (d : R) (vector : List T) (function : T → R) :
    Option (List R) :=
  if vector.length < THRESHOLD then some (do_comp_work_in_cur_thread vector function)
  else shardedWork d vector function

/-- Models `do_comp_work_in_some_thread` when sends can fail: `ok k` tells
whether the `k`-th send on the channel succeeds (the receiver is still alive).
Returns the messages actually delivered, and `true` exactly when
`sender.send(result).expect(...)` panicked, which aborts the loop. -/
def do_comp_work_in_some_thread_sends (function : T → R) (ok : ℕ → Bool) :
    List (ℕ × T) → ℕ → List (ℕ × R) × Bool
  | [], _ => ([], false)
  | (i, t) :: rest, k =>
    if ok k then
      let r := do_comp_work_in_some_thread_sends function ok rest (k + 1)
      ((i, function t) :: r.1, r.2)
    else ([], true)

end ListModel

/-- `const EVEN_BASE: i64 = 2`. -/
def EVEN_BASE : ℤ := 2

/-- The smallest `i64` value. -/
def i64Min : ℤ := -(2 ^ 63)

/-- Rust `i64::checked_rem`: `None` when the divisor is zero or when the
operation overflows (`i64::MIN % -1`); otherwise the truncated remainder
(Rust `%`, which is `Int.tmod`). -/
def checked_rem (a b : ℤ) : Option ℤ :=
  if b = 0 ∨ (a = i64Min ∧ b = -1) then none else some (a.tmod b)

/-- `fn is_even(num: i64) -> bool`: `num.checked_rem(EVEN_BASE).expect(...) == 0`.
The `expect` panic is modelled by propagating `none`. -/
def is_even (num : ℤ) : Option Bool :=
  (checked_rem num EVEN_BASE).map (fun r => r == 0)

/-! ### Numeric layer lemmas -/

theorem log2floorAux_spec : ∀ (fuel n : ℕ), 1 ≤ n → n ≤ fuel →
    2 ^ log2floorAux fuel n ≤ n ∧ n < 2 ^ (log2floorAux fuel n + 1)
  | 0, n => by intro h1 h2; omega
  | fuel + 1, n => by
    intro h1 hf
    unfold log2floorAux
    by_cases h : n < 2
    · simp only [if_pos h]
      constructor
      · simpa using h1
      · simpa using h
    · simp only [if_neg h]
      have hn2 : 1 ≤ n / 2 := by omega
      have hf2 : n / 2 ≤ fuel := by omega
      have ih := log2floorAux_spec fuel (n / 2) hn2 hf2
      have e1 : (2:ℕ) ^ (log2floorAux fuel (n / 2) + 1) = 2 ^ log2floorAux fuel (n / 2) * 2 :=
        pow_succ 2 _
      have e2 : (2:ℕ) ^ (log2floorAux fuel (n / 2) + 1 + 1) =
          2 ^ (log2floorAux fuel (n / 2) + 1) * 2 := pow_succ 2 _
      omega

theorem log2floor_spec {n : ℕ} (h : 1 ≤ n) :
    2 ^ log2floor n ≤ n ∧ n < 2 ^ (log2floor n + 1) :=
  log2floorAux_spec n n h le_rfl

theorem log2floor_ge {k n : ℕ} (h : 2 ^ k ≤ n) : k ≤ log2floor n := by
  have h1 : 1 ≤ n := le_trans (Nat.one_le_two_pow) h
  have hs := log2floor_spec h1
  by_contra hc
  have : log2floor n + 1 ≤ k := by omega
  have := Nat.pow_le_pow_right (n := 2) (by norm_num) this
  omega

theorem log2floor_zero : log2floor 0 = 0 := rfl

theorem rne_ge (num den : ℕ) : num / den ≤ rne num den := by
  unfold rne
  split
  · exact le_rfl
  split
  · exact Nat.le_succ _
  split
  · exact le_rfl
  · exact Nat.le_succ _

theorem rne_le (num den : ℕ) : rne num den ≤ num / den + 1 := by
  unfold rne
  split
  · exact Nat.le_succ _
  split
  · exact le_rfl
  split
  · exact Nat.le_succ _
  · exact le_rfl

theorem rne_of_mod_eq_zero {num den : ℕ} (hden : 0 < den) (h : num % den = 0) :
    rne num den = num / den := by
  unfold rne
  rw [h]
  simp [hden]

theorem rne_eq_succ {num den : ℕ} (h : den < 2 * (num % den)) :
    rne num den = num / den + 1 := by
  unfold rne
  rw [if_neg (by omega), if_pos h]

theorem f64cast_eq_self {n : ℕ} (h : n ≤ 2 ^ 53) : f64cast n = n := by
  unfold f64cast
  split
  · rfl
  · rename_i hc
    have hn1 : 1 ≤ n := by
      rcases Nat.eq_zero_or_pos n with h0 | h1
      · subst h0; simp [log2floor_zero] at hc
      · exact h1
    have hs := log2floor_spec hn1
    have h53 : 53 ≤ log2floor n := by omega
    have : 2 ^ 53 ≤ 2 ^ log2floor n := Nat.pow_le_pow_right (by norm_num) h53
    have hn : n = 2 ^ 53 := by omega
    rw [hn]
    decide

theorem f64cast_ge_pow {n : ℕ} (h : 1 ≤ n) : 2 ^ log2floor n ≤ f64cast n := by
  have hs := log2floor_spec h
  unfold f64cast
  split
  · exact hs.1
  · rename_i hc
    have hg : (0:ℕ) < 2 ^ (log2floor n - 52) := Nat.pos_pow_of_pos _ (by norm_num)
    calc 2 ^ log2floor n
        = 2 ^ 52 * 2 ^ (log2floor n - 52) := by
          rw [← pow_add]
          congr 1
          omega
      _ ≤ n / 2 ^ (log2floor n - 52) * 2 ^ (log2floor n - 52) := by
          apply Nat.mul_le_mul_right
          have : 2 ^ 52 ≤ 2 ^ log2floor n / 2 ^ (log2floor n - 52) := by
            rw [Nat.pow_div (by omega) (by norm_num)]
            apply Nat.pow_le_pow_right (by norm_num)
            omega
          exact le_trans this (Nat.div_le_div_right hs.1)
      _ ≤ rne n (2 ^ (log2floor n - 52)) * 2 ^ (log2floor n - 52) := by
          apply Nat.mul_le_mul_right
          exact rne_ge _ _


theorem rne_ceil_div {a b D : ℕ} (hb : 1 ≤ b) (hD : 1 ≤ D)
    (hcase : a % b = 0 ∨ b < 2 * D) :
    (rne (a * D) b + D - 1) / D = (a + b - 1) / b := by
  have hbpos : 0 < b := hb
  have hdm := Nat.div_add_mod a b
  by_cases hdvd : a % b = 0
  · -- exact quotient: no rounding happens
    have hmodD : a * D % b = 0 := by
      apply Nat.mod_eq_zero_of_dvd
      exact Dvd.dvd.mul_right (Nat.dvd_of_mod_eq_zero hdvd) D
    have hAD : a * D = b * (a / b * D) := by
      conv_lhs => rw [← hdm]
      rw [hdvd]
      ring
    have hdivD : a * D / b = a / b * D := by
      rw [hAD, Nat.mul_div_cancel_left _ hbpos]
    rw [rne_of_mod_eq_zero hbpos hmodD, hdivD]
    have h1 : (a / b * D + D - 1) / D = a / b := by
      apply Nat.div_eq_of_lt_le
      · have : a / b * D = D * (a / b) := by ring
        omega
      · have h2 : (a / b + 1) * D = a / b * D + D := by ring
        omega
    have h2 : (a + b - 1) / b = a / b := by
      apply Nat.div_eq_of_lt_le
      · have : a / b * b = b * (a / b) := by ring
        omega
      · have : (a / b + 1) * b = b * (a / b) + b := by ring
        omega
    rw [h1, h2]
  · -- inexact quotient: the fractional part r / b exceeds half an ulp
    -- (b < 2 * D gives 1 / b > 1 / (2 * D)), so rounding stays above the floor
    have h2D : b < 2 * D := hcase.resolve_left hdvd
    have hr1 : 1 ≤ a % b := by omega
    have hrb : a % b < b := Nat.mod_lt _ hbpos
    have hA : a * D = b * (a / b * D) + a % b * D := by
      conv_lhs => rw [← hdm]
      ring
    have hlow : a / b * D + 1 ≤ rne (a * D) b := by
      by_cases hq : b ≤ a % b * D
      · refine le_trans ?_ (rne_ge _ _)
        rw [Nat.le_div_iff_mul_le hbpos, hA]
        have : (a / b * D + 1) * b = b * (a / b * D) + b := by ring
        omega
      · have hquot : a * D / b = a / b * D := by
          apply Nat.div_eq_of_lt_le
          · rw [hA]
            have : a / b * D * b = b * (a / b * D) := by ring
            omega
          · rw [hA]
            have : (a / b * D + 1) * b = b * (a / b * D) + b := by ring
            omega
        have hmod : a * D % b = a % b * D := by
          have hdm2 := Nat.div_add_mod (a * D) b
          rw [hquot] at hdm2
          omega
        have h2r : b < 2 * (a * D % b) := by
          rw [hmod]
          have : D ≤ a % b * D := Nat.le_mul_of_pos_left D hr1
          omega
        rw [rne_eq_succ h2r, hquot]
    have hhigh : rne (a * D) b ≤ a / b * D + D := by
      have hqlt : a * D / b < a / b * D + D := by
        apply Nat.div_lt_of_lt_mul
        rw [hA]
        have h1 : b * (a / b * D + D) = b * (a / b * D) + b * D := by ring
        have h2 : (a % b + 1) * D ≤ b * D := Nat.mul_le_mul_right D (by omega)
        have h3 : (a % b + 1) * D = a % b * D + D := by ring
        omega
      have := rne_le (a * D) b
      omega
    have h1 : (rne (a * D) b + D - 1) / D = a / b + 1 := by
      apply Nat.div_eq_of_lt_le
      · have : (a / b + 1) * D = a / b * D + D := by ring
        omega
      · have : (a / b + 1 + 1) * D = a / b * D + D + D := by ring
        omega
    have h2 : (a + b - 1) / b = a / b + 1 := by
      apply Nat.div_eq_of_lt_le
      · have : (a / b + 1) * b = b * (a / b) + b := by ring
        omega
      · have : (a / b + 1 + 1) * b = b * (a / b) + b + b := by ring
        omega
    rw [h1, h2]

theorem ceilDivF64_exact {a b : ℕ} (hb : 1 ≤ b) (hba : b ≤ a) (ha : a ≤ 2 ^ 53) :
    ceilDivF64 a b = (a + b - 1) / b := by
  have hbpos : 0 < b := hb
  have hq1 : 1 ≤ a / b := (Nat.one_le_div_iff hbpos).mpr hba
  have hs := log2floor_spec hq1
  unfold ceilDivF64
  split
  case isTrue hc =>
    apply rne_ceil_div hb (Nat.pos_pow_of_pos _ (by norm_num))
    by_cases hdvd : a % b = 0
    · exact Or.inl hdvd
    · right
      -- b * 2 ^ e < a ≤ 2 ^ 53 = (2 * 2 ^ (52 - e)) * 2 ^ e forces b < 2 * 2 ^ (52 - e)
      have hkey : b * 2 ^ log2floor (a / b) < a := by
        have h1 : b * 2 ^ log2floor (a / b) ≤ b * (a / b) := Nat.mul_le_mul_left b hs.1
        rcases Nat.lt_or_ge (b * (a / b)) a with hlt | hge
        · omega
        · -- b * (a / b) = a would contradict a % b ≠ 0
          have hdm := Nat.div_add_mod a b
          omega
      have h53 : 2 * 2 ^ (52 - log2floor (a / b)) * 2 ^ log2floor (a / b) = 2 ^ 53 := by
        rw [mul_assoc, ← pow_add]
        have : 52 - log2floor (a / b) + log2floor (a / b) = 52 := by omega
        rw [this]
        norm_num
      have hlt : b * 2 ^ log2floor (a / b) <
          2 * 2 ^ (52 - log2floor (a / b)) * 2 ^ log2floor (a / b) := by omega
      exact Nat.lt_of_mul_lt_mul_right hlt
  case isFalse hc =>
    -- log2floor (a / b) ≥ 53 forces a = 2 ^ 53 and b = 1
    have h1 : 2 ^ 53 ≤ a / b := by
      have := Nat.pow_le_pow_right (n := 2) (by norm_num) (show 53 ≤ log2floor (a / b) by omega)
      omega
    have h2 : a / b ≤ a := Nat.div_le_self a b
    have hae : a = 2 ^ 53 := by omega
    have hb1 : b = 1 := by
      by_contra hb2
      have : a / b ≤ a / 2 := Nat.div_le_div_left (by omega) (by omega)
      omega
    rw [hae, hb1]
    decide

theorem ceilDivF64_ge {a b : ℕ} (hb : 1 ≤ b) (hba : b ≤ a) :
    2 ^ log2floor (a / b) ≤ ceilDivF64 a b := by
  have hbpos : 0 < b := hb
  have hq1 : 1 ≤ a / b := (Nat.one_le_div_iff hbpos).mpr hba
  have hs := log2floor_spec hq1
  have hdm := Nat.div_add_mod a b
  unfold ceilDivF64
  split
  case isTrue hc =>
    have hDpos : (0:ℕ) < 2 ^ (52 - log2floor (a / b)) := Nat.pos_pow_of_pos _ (by norm_num)
    have step1 : a / b * 2 ^ (52 - log2floor (a / b)) ≤
        a * 2 ^ (52 - log2floor (a / b)) / b := by
      rw [Nat.le_div_iff_mul_le hbpos]
      have h1 : a / b * 2 ^ (52 - log2floor (a / b)) * b =
          b * (a / b) * 2 ^ (52 - log2floor (a / b)) := by ring
      rw [h1]
      exact Nat.mul_le_mul_right _ (by omega)
    have step2 := rne_ge (a * 2 ^ (52 - log2floor (a / b))) b
    have step3 : a / b ≤ (a / b * 2 ^ (52 - log2floor (a / b)) +
        2 ^ (52 - log2floor (a / b)) - 1) / 2 ^ (52 - log2floor (a / b)) := by
      rw [Nat.le_div_iff_mul_le hDpos]
      omega
    refine le_trans (le_trans hs.1 step3) (Nat.div_le_div_right ?_)
    omega
  case isFalse hc =>
    have hgpos : (0:ℕ) < 2 ^ (log2floor (a / b) - 52) := Nat.pos_pow_of_pos _ (by norm_num)
    have step1 : 2 ^ 52 ≤ rne a (b * 2 ^ (log2floor (a / b) - 52)) := by
      refine le_trans ?_ (rne_ge _ _)
      rw [← Nat.div_div_eq_div_mul]
      refine le_trans ?_ (Nat.div_le_div_right (c := 2 ^ (log2floor (a / b) - 52)) hs.1)
      rw [Nat.pow_div (by omega) (by norm_num)]
      apply Nat.pow_le_pow_right (by norm_num)
      omega
    calc 2 ^ log2floor (a / b)
        = 2 ^ 52 * 2 ^ (log2floor (a / b) - 52) := by
          rw [← pow_add]
          congr 1
          omega
      _ ≤ rne a (b * 2 ^ (log2floor (a / b) - 52)) * 2 ^ (log2floor (a / b) - 52) :=
          Nat.mul_le_mul_right _ step1

theorem num_of_threads_exact {n : ℕ} (h8 : 8 ≤ n) :
    num_of_threads n = min MAX_NUM_OF_THREADS ((n + THRESHOLD - 1) / THRESHOLD) := by
  have hT : f64cast THRESHOLD = 8 := by decide
  unfold num_of_threads
  rw [hT]
  by_cases h53 : n ≤ 2 ^ 53
  · rw [f64cast_eq_self h53, ceilDivF64_exact (by norm_num) (by omega) h53]
    unfold THRESHOLD MAX_NUM_OF_THREADS
    split <;> omega
  · -- huge input: both sides are the cap 64
    have hl : 53 ≤ log2floor n := log2floor_ge (by omega)
    have hge : 2 ^ 53 ≤ f64cast n := by
      have h1 := f64cast_ge_pow (n := n) (by omega)
      have h2 : (2:ℕ) ^ 53 ≤ 2 ^ log2floor n := Nat.pow_le_pow_right (by norm_num) hl
      omega
    have h8a : 8 ≤ f64cast n := by omega
    have hcg := ceilDivF64_ge (a := f64cast n) (b := 8) (by norm_num) h8a
    have hq : 2 ^ 50 ≤ f64cast n / 8 := by omega
    have hlq : 50 ≤ log2floor (f64cast n / 8) := log2floor_ge hq
    have hpow : (2:ℕ) ^ 50 ≤ 2 ^ log2floor (f64cast n / 8) :=
      Nat.pow_le_pow_right (by norm_num) hlq
    have hbig : 64 < ceilDivF64 (f64cast n) 8 := by omega
    unfold THRESHOLD MAX_NUM_OF_THREADS
    unfold THRESHOLD at hbig
    rw [if_pos (by omega)]
    have : 2 ^ 50 ≤ (n + 8 - 1) / 8 := by omega
    omega

theorem num_of_threads_le {n : ℕ} : num_of_threads n ≤ 64 := by
  unfold num_of_threads MAX_NUM_OF_THREADS
  split <;> omega

theorem num_of_threads_pos {n : ℕ} (h8 : 8 ≤ n) : 1 ≤ num_of_threads n := by
  rw [num_of_threads_exact h8]
  unfold THRESHOLD MAX_NUM_OF_THREADS
  have : 1 ≤ (n + 8 - 1) / 8 := by omega
  omega

theorem num_of_threads_le_self {n : ℕ} (h8 : 8 ≤ n) : num_of_threads n ≤ n := by
  rw [num_of_threads_exact h8]
  unfold THRESHOLD MAX_NUM_OF_THREADS
  rcases le_total 64 ((n + 8 - 1) / 8) with h | h
  · rw [min_eq_left h]
    omega
  · rw [min_eq_right h]
    omega

theorem items_per_thread_exact {n : ℕ} (h8 : 8 ≤ n) (h53 : n ≤ 2 ^ 53) :
    items_per_thread n = (n + num_of_threads n - 1) / num_of_threads n := by
  have hw1 : 1 ≤ num_of_threads n := num_of_threads_pos h8
  have hw64 : num_of_threads n ≤ 64 := num_of_threads_le
  have hwn : num_of_threads n ≤ n := num_of_threads_le_self h8
  unfold items_per_thread
  rw [f64cast_eq_self h53, f64cast_eq_self (by omega)]
  exact ceilDivF64_exact hw1 hwn h53

theorem items_per_thread_pos {n : ℕ} (h8 : 8 ≤ n) : 1 ≤ items_per_thread n := by
  have hw1 : 1 ≤ num_of_threads n := num_of_threads_pos h8
  have hw64 : num_of_threads n ≤ 64 := num_of_threads_le
  have hcast : f64cast (num_of_threads n) = num_of_threads n := f64cast_eq_self (by norm_num; omega)
  unfold items_per_thread
  rw [hcast]
  have hwa : num_of_threads n ≤ f64cast n := by
    by_cases h53 : n ≤ 2 ^ 53
    · rw [f64cast_eq_self h53]
      exact le_trans (num_of_threads_le_self h8) le_rfl
    · have hl : 53 ≤ log2floor n := log2floor_ge (by omega)
      have h1 := f64cast_ge_pow (n := n) (by omega)
      have h2 : (2:ℕ) ^ 53 ≤ 2 ^ log2floor n := Nat.pow_le_pow_right (by norm_num) hl
      omega
  refine le_trans ?_ (ceilDivF64_ge hw1 hwa)
  exact Nat.one_le_two_pow

theorem coverage {n : ℕ} (h8 : 8 ≤ n) (h53 : n ≤ 2 ^ 53) :
    n ≤ num_of_threads n * items_per_thread n := by
  rw [items_per_thread_exact h8 h53]
  have hw1 : 1 ≤ num_of_threads n := num_of_threads_pos h8
  have hdm := Nat.div_add_mod (n + num_of_threads n - 1) (num_of_threads n)
  have hml := Nat.mod_lt (n + num_of_threads n - 1) (y := num_of_threads n) (by omega)
  omega

theorem items_per_thread_le_self {n : ℕ} (h8 : 8 ≤ n) (h53 : n ≤ 2 ^ 53) :
    items_per_thread n ≤ n := by
  rw [items_per_thread_exact h8 h53]
  have hw1 : 1 ≤ num_of_threads n := num_of_threads_pos h8
  have hle : n + num_of_threads n - 1 ≤ n * num_of_threads n + (num_of_threads n - 1) := by
    have : n ≤ n * num_of_threads n := Nat.le_mul_of_pos_right n hw1
    omega
  refine le_trans (Nat.div_le_div_right hle) ?_
  have hcomm : n * num_of_threads n = num_of_threads n * n := by ring
  rw [hcomm, Nat.mul_add_div (by omega), Nat.div_eq_of_lt (by omega)]
  omega

/-! ### List layer lemmas -/

theorem min_add_shift {c i n x : ℕ} (h : c ≤ n) :
    min (min (c + i) n + x) n = min (c + i + x) n := by
  rcases le_total (c + i) n with h1 | h1
  · rw [min_eq_left h1]
  · rw [min_eq_right h1, min_eq_right (by omega), min_eq_right (by omega)]

theorem chunkBounds_eq (items n w : ℕ) : ∀ (cur : ℕ), cur ≤ n → n + items < 2 ^ 64 →
    chunkBounds items n w cur =
      some ((List.range w).map
        (fun k => (min (cur + k * items) n, min (cur + (k + 1) * items) n))) := by
  induction w with
  | zero =>
    intro cur h1 h2
    rfl
  | succ w ih =>
    intro cur h1 h2
    have hmod : (cur + items) % 2 ^ 64 = cur + items := Nat.mod_eq_of_lt (by omega)
    show (if cur ≤ _ then _ else none) = _
    rw [hmod]
    have hcond : (if cur + items > n then n else cur + items) = min (cur + items) n := by
      split <;> omega
    rw [hcond, if_pos (by omega), ih (min (cur + items) n) (by omega) h2]
    rw [Option.map_some', List.range_succ_eq_map, List.map_cons, List.map_map]
    congr 1
    congr 1
    · have e1 : cur + 0 * items = cur := by ring
      have e2 : cur + (0 + 1) * items = cur + items := by ring
      rw [e1, e2, min_eq_left h1]
    · apply List.map_congr_left
      intro k _
      simp only [Function.comp]
      have a1 : min (min (cur + items) n + k * items) n
          = min (cur + (k + 1) * items) n := by
        rw [min_add_shift h1]
        congr 1
        ring
      have a2 : min (min (cur + items) n + (k + 1) * items) n
          = min (cur + (k + 1 + 1) * items) n := by
        rw [min_add_shift h1]
        congr 1
        ring
      rw [a1, a2]

theorem enumFrom_append_eq {α : Type _} (l₂ : List α) :
    ∀ (l₁ : List α) (s : ℕ), List.enumFrom s (l₁ ++ l₂)
      = List.enumFrom s l₁ ++ List.enumFrom (s + l₁.length) l₂ := by
  intro l₁
  induction l₁ with
  | nil => intro s; simp
  | cons x l ih =>
    intro s
    rw [List.cons_append, List.enumFrom_cons, ih (s + 1), List.enumFrom_cons]
    have : s + 1 + l.length = s + (x :: l).length := by simp; omega
    rw [this]
    simp

theorem enumFrom_map_eq {α β : Type _} (f : α → β) :
    ∀ (l : List α) (s : ℕ), List.enumFrom s (l.map f)
      = (List.enumFrom s l).map (fun p => (p.1, f p.2)) := by
  intro l
  induction l with
  | nil => intro s; rfl
  | cons x l ih => intro s; simp [ih (s + 1)]

theorem mem_enumFrom_bounds {α : Type _} :
    ∀ (l : List α) (s : ℕ) (p : ℕ × α), p ∈ List.enumFrom s l →
      s ≤ p.1 ∧ p.1 < s + l.length := by
  intro l
  induction l with
  | nil => intro s p h; simp at h
  | cons x l ih =>
    intro s p h
    rw [List.enumFrom_cons, List.mem_cons] at h
    rcases h with h | h
    · subst h
      simp
    · have := ih (s + 1) p h
      simp only [List.length_cons]
      omega

theorem pairwise_enumFrom {α : Type _} :
    ∀ (l : List α) (s : ℕ),
      List.Pairwise (fun p q : ℕ × α => p.1 < q.1) (List.enumFrom s l) := by
  intro l
  induction l with
  | nil => intro s; simp
  | cons x l ih =>
    intro s
    rw [List.enumFrom_cons]
    constructor
    · intro q hq
      have := mem_enumFrom_bounds l (s + 1) q hq
      omega
    · exact ih (s + 1)

theorem writeAll_cons {R : Type _} (m : ℕ × R) (ms : List (ℕ × R)) (init : List R) :
    writeAll (m :: ms) init = writeAll ms (init.set m.1 m.2) := rfl

theorem writeAll_enumFrom {R : Type _} :
    ∀ (l : List R) (init : List R) (s : ℕ), s + l.length ≤ init.length →
      writeAll (List.enumFrom s l) init
        = init.take s ++ l ++ init.drop (s + l.length) := by
  intro l
  induction l with
  | nil =>
    intro init s h
    show init = _
    simp [List.take_append_drop]
  | cons x l ih =>
    intro init s h
    have hs : s < init.length := by simp at h; omega
    rw [List.enumFrom_cons, writeAll_cons,
      ih (init.set s x) (s + 1) (by simp at h ⊢; omega)]
    have t1 : (init.set s x).take (s + 1) = init.take s ++ [x] := by
      rw [List.set_take, List.take_succ, List.getElem?_eq_getElem hs]
      rw [List.set_append_right _ _ (by simp [Nat.min_le_left])]
      have hlen : (init.take s).length = s := by simp; omega
      rw [hlen]
      simp
    have t2 : (init.set s x).drop (s + 1 + l.length) = init.drop (s + 1 + l.length) := by
      rw [List.drop_set, if_pos (by omega)]
    rw [t1, t2]
    have : s + 1 + l.length = s + (x :: l).length := by simp; omega
    rw [this]
    simp

theorem do_comp_work_in_cur_thread_eq_map {T R : Type _} (vector : List T) (function : T → R) :
    do_comp_work_in_cur_thread vector function = vector.map function := by
  unfold do_comp_work_in_cur_thread
  suffices h : ∀ acc : List R, vector.foldl (fun result item => result ++ [function item]) acc
      = acc ++ vector.map function by
    simpa using h []
  induction vector with
  | nil => intro acc; simp
  | cons x l ih => intro acc; simp [ih]

theorem flatten_chunkPairs {T : Type _} (v : List T) (items n : ℕ) (hn : n = v.length) :
    ∀ (w cur : ℕ), cur ≤ n →
      (((List.range w).map
          (fun k => (min (cur + k * items) n, min (cur + (k + 1) * items) n))).map
        (fun p => chunkPairs v p.1 p.2)).flatten
      = List.enumFrom cur ((v.drop cur).take (min (cur + w * items) n - cur)) := by
  subst hn
  intro w
  induction w with
  | zero =>
    intro cur h1
    have e1 : cur + 0 * items = cur := by ring
    rw [e1, min_eq_left h1]
    simp
  | succ w ih =>
    intro cur h1
    rw [List.range_succ_eq_map, List.map_cons, List.map_map, List.map_cons, List.flatten_cons]
    have e1 : cur + 0 * items = cur := by ring
    have e2 : cur + (0 + 1) * items = cur + items := by ring
    rw [e1, e2, min_eq_left h1]
    have hshift : ((fun k => (min (cur + k * items) v.length, min (cur + (k + 1) * items) v.length))
          ∘ Nat.succ)
        = fun k => (min (min (cur + items) v.length + k * items) v.length,
            min (min (cur + items) v.length + (k + 1) * items) v.length) := by
      funext k
      simp only [Function.comp]
      have a1 : min (min (cur + items) v.length + k * items) v.length
          = min (cur + (k + 1) * items) v.length := by
        rw [min_add_shift h1]
        congr 1
        ring
      have a2 : min (min (cur + items) v.length + (k + 1) * items) v.length
          = min (cur + (k + 1 + 1) * items) v.length := by
        rw [min_add_shift h1]
        congr 1
        ring
      rw [a1, a2]
    rw [hshift, ih (min (cur + items) v.length) (by omega)]
    -- combine head chunk and tail into one enumFrom
    dsimp only
    rw [show chunkPairs v cur (min (cur + items) v.length)
        = List.enumFrom cur ((v.drop cur).take (min (cur + items) v.length - cur)) from rfl]
    have hlen1 : ((v.drop cur).take (min (cur + items) v.length - cur)).length
        = min (cur + items) v.length - cur := by
      simp only [List.length_take, List.length_drop]
      omega
    have hE : min (min (cur + items) v.length + w * items) v.length
        = min (cur + (w + 1) * items) v.length := by
      rw [min_add_shift h1]
      congr 1
      ring
    rw [hE]
    have hdd : v.drop (min (cur + items) v.length)
        = (v.drop cur).drop (min (cur + items) v.length - cur) := by
      rw [List.drop_drop]
      congr 1
      omega
    rw [hdd]
    have htake : (v.drop cur).take (min (cur + (w + 1) * items) v.length - cur)
        = (v.drop cur).take (min (cur + items) v.length - cur)
          ++ ((v.drop cur).drop (min (cur + items) v.length - cur)).take
              (min (cur + (w + 1) * items) v.length - min (cur + items) v.length) := by
      rw [← List.take_add]
      congr 1
      have hle : min (cur + items) v.length ≤ min (cur + (w + 1) * items) v.length := by
        have : cur + 1 * items ≤ cur + (w + 1) * items :=
          Nat.add_le_add_left (Nat.mul_le_mul_right items (by omega)) cur
        have h1i : cur + items = cur + 1 * items := by ring
        omega
      omega
    rw [htake, enumFrom_append_eq, hlen1]
    congr 2
    omega

theorem do_comp_chunkPairs {T R : Type _} (v : List T) (f : T → R) (s e : ℕ) :
    do_comp_work_in_some_thread (chunkPairs v s e) f = chunkPairs (v.map f) s e := by
  unfold do_comp_work_in_some_thread chunkPairs
  rw [← List.map_drop, ← List.map_take, enumFrom_map_eq]

theorem drop_replicate_eq {α : Type _} (d : α) :
    ∀ (i n : ℕ), (List.replicate n d).drop i = List.replicate (n - i) d := by
  intro i
  induction i with
  | zero => intro n; simp
  | succ i ih =>
    intro n
    cases n with
    | zero => simp
    | succ n =>
      rw [List.replicate_succ, List.drop_succ_cons, ih n]
      congr 1
      omega

theorem shardedMsgs_eq {T R : Type _} (v : List T) (f : T → R)
    (hw : v.length + items_per_thread v.length < 2 ^ 64) :
    shardedMsgs v f = some (List.enumFrom 0 ((v.map f).take
      (min (num_of_threads v.length * items_per_thread v.length) v.length))) := by
  unfold shardedMsgs shardedChunks
  rw [chunkBounds_eq _ _ _ 0 (by omega) hw, Option.map_some', Option.map_some']
  congr 1
  rw [List.map_map]
  have hmaps : ((fun c => do_comp_work_in_some_thread c f) ∘
        fun p : ℕ × ℕ => chunkPairs v p.1 p.2)
      = fun p : ℕ × ℕ => chunkPairs (v.map f) p.1 p.2 := by
    funext p
    simp only [Function.comp]
    exact do_comp_chunkPairs v f p.1 p.2
  rw [hmaps]
  have hlen : v.length = (v.map f).length := (List.length_map v f).symm
  rw [flatten_chunkPairs (v.map f) _ _ hlen _ 0 (by omega)]
  rw [List.drop_zero]
  congr 1
  rw [Nat.zero_add, Nat.sub_zero]

theorem shardedWork_eq {T R : Type _} (d : R) (v : List T) (f : T → R)
    (hw : v.length + items_per_thread v.length < 2 ^ 64) :
    shardedWork d v f = some ((v.map f).take
        (min (num_of_threads v.length * items_per_thread v.length) v.length)
      ++ List.replicate (v.length -
        min (num_of_threads v.length * items_per_thread v.length) v.length) d) := by
  unfold shardedWork
  rw [shardedMsgs_eq v f hw, Option.map_some']
  congr 1
  have hcov : ((v.map f).take
      (min (num_of_threads v.length * items_per_thread v.length) v.length)).length
      = min (num_of_threads v.length * items_per_thread v.length) v.length := by
    simp only [List.length_take, List.length_map]
    omega
  rw [writeAll_enumFrom _ (List.replicate v.length d) 0
    (by rw [hcov]; simp only [List.length_replicate]; omega)]
  rw [List.take_zero, List.nil_append, Nat.zero_add, hcov, drop_replicate_eq]

theorem split_comp_work_eq_map {T R : Type _} (d : R) (v : List T) (f : T → R)
    (h53 : v.length ≤ 2 ^ 53) : split_comp_work d v f = some (v.map f) := by
  unfold split_comp_work
  split
  · rw [do_comp_work_in_cur_thread_eq_map]
  · rename_i hge
    have h8 : 8 ≤ v.length := by
      simp only [THRESHOLD] at hge
      omega
    have hle := items_per_thread_le_self h8 h53
    rw [shardedWork_eq d v f (by omega)]
    have hcov : min (num_of_threads v.length * items_per_thread v.length) v.length
        = v.length := by
      have := coverage h8 h53
      omega
    rw [hcov]
    have ht : (v.map f).take v.length = v.map f := by
      apply List.take_of_length_le
      simp
    rw [ht]
    simp

theorem chunkBounds_succ (items n w cur : ℕ) :
    chunkBounds items n (w + 1) cur =
      if cur ≤ min ((cur + items) % 2 ^ 64) n then
        (chunkBounds items n w (min ((cur + items) % 2 ^ 64) n)).map
          (fun bs => (cur, min ((cur + items) % 2 ^ 64) n) :: bs)
      else none := by
  have hmin : (if (cur + items) % 2 ^ 64 > n then n else (cur + items) % 2 ^ 64)
      = min ((cur + items) % 2 ^ 64) n := by
    split <;> omega
  show (if cur ≤ (if (cur + items) % 2 ^ 64 > n then n else (cur + items) % 2 ^ 64) then _
    else none) = _
  rw [hmin]

theorem chunkBounds_bounds {items n : ℕ} :
    ∀ (w cur : ℕ) (bs : List (ℕ × ℕ)), cur ≤ n → chunkBounds items n w cur = some bs →
      ∀ p ∈ bs, cur ≤ p.1 ∧ p.1 ≤ p.2 ∧ p.2 ≤ n := by
  intro w
  induction w with
  | zero =>
    intro cur bs h1 heq p hp
    have hb : bs = [] := by
      have h2 : (some [] : Option (List (ℕ × ℕ))) = some bs := heq
      exact (Option.some.inj h2).symm
    subst hb
    simp at hp
  | succ w ih =>
    intro cur bs h1 heq p hp
    rw [chunkBounds_succ] at heq
    split at heq
    case isFalse => exact absurd heq (by simp)
    case isTrue hcond =>
      rcases Option.map_eq_some'.mp heq with ⟨bs', hbs', hcons⟩
      subst hcons
      have he_le : min ((cur + items) % 2 ^ 64) n ≤ n := min_le_right _ _
      rcases List.mem_cons.mp hp with hph | hpt
      · subst hph
        exact ⟨le_rfl, hcond, he_le⟩
      · have := ih _ bs' he_le hbs' p hpt
        exact ⟨le_trans hcond this.1, this.2.1, this.2.2⟩

theorem chunk_msgs_pairwise {T R : Type _} (v : List T) (f : T → R) (items : ℕ) :
    ∀ (w cur : ℕ) (bs : List (ℕ × ℕ)), cur ≤ v.length →
      chunkBounds items v.length w cur = some bs →
      List.Pairwise (fun p q : ℕ × R => p.1 < q.1)
        ((bs.map (fun p => do_comp_work_in_some_thread (chunkPairs v p.1 p.2) f)).flatten)
      ∧ ∀ p ∈ (bs.map (fun p => do_comp_work_in_some_thread (chunkPairs v p.1 p.2) f)).flatten,
          cur ≤ p.1 := by
  intro w
  induction w with
  | zero =>
    intro cur bs h1 heq
    have hb : bs = [] := by
      have h2 : (some [] : Option (List (ℕ × ℕ))) = some bs := heq
      exact (Option.some.inj h2).symm
    subst hb
    exact ⟨by simp, by intro p hp; simp at hp⟩
  | succ w ih =>
    intro cur bs h1 heq
    rw [chunkBounds_succ] at heq
    split at heq
    case isFalse => exact absurd heq (by simp)
    case isTrue hcond =>
      rcases Option.map_eq_some'.mp heq with ⟨bs', hbs', hcons⟩
      subst hcons
      have he_le : min ((cur + items) % 2 ^ 64) v.length ≤ v.length := min_le_right _ _
      have htail := ih _ bs' he_le hbs'
      rw [List.map_cons, List.flatten_cons]
      have hhead : ∀ p ∈ do_comp_work_in_some_thread
          (chunkPairs v cur (min ((cur + items) % 2 ^ 64) v.length)) f,
          cur ≤ p.1 ∧ p.1 < min ((cur + items) % 2 ^ 64) v.length := by
        intro p hp
        rw [do_comp_chunkPairs] at hp
        unfold chunkPairs at hp
        have hb := mem_enumFrom_bounds _ cur p hp
        have hlen : (((v.map f).drop cur).take
            (min ((cur + items) % 2 ^ 64) v.length - cur)).length
            ≤ min ((cur + items) % 2 ^ 64) v.length - cur := by
          rw [List.length_take]
          exact min_le_left _ _
        omega
      constructor
      · rw [List.pairwise_append]
        refine ⟨?_, htail.1, ?_⟩
        · rw [do_comp_chunkPairs]
          unfold chunkPairs
          exact pairwise_enumFrom _ cur
        · intro a ha b hb
          have hai := hhead a ha
          have hbi := htail.2 b hb
          omega
      · intro p hp
        rcases List.mem_append.mp hp with h | h
        · exact (hhead p h).1
        · exact le_trans hcond (htail.2 p h)

theorem writeAll_perm {R : Type _} {m m' : List (ℕ × R)} (hp : m.Perm m') :
    List.Pairwise (fun p q : ℕ × R => p.1 ≠ q.1) m →
    ∀ init : List R, writeAll m init = writeAll m' init := by
  induction hp with
  | nil => intro _ init; rfl
  | cons x hsub ih =>
    intro hnd init
    rw [writeAll_cons, writeAll_cons]
    exact ih (List.pairwise_cons.mp hnd).2 _
  | swap x y l =>
    intro hnd init
    rw [writeAll_cons, writeAll_cons, writeAll_cons, writeAll_cons]
    have hne : y.1 ≠ x.1 := (List.pairwise_cons.mp hnd).1 x (by simp)
    congr 1
    exact List.set_comm _ _ _ hne
  | trans h1 h2 ih1 ih2 =>
    intro hnd init
    rw [ih1 hnd init]
    apply ih2
    exact (List.Perm.pairwise_iff (fun h => Ne.symm h) h1).mp hnd

theorem shardedMsgs_inv {T R : Type _} {v : List T} {f : T → R} {m : List (ℕ × R)}
    (hm : shardedMsgs v f = some m) :
    ∃ bs, chunkBounds (items_per_thread v.length) v.length (num_of_threads v.length) 0
        = some bs ∧
      m = (bs.map (fun p => do_comp_work_in_some_thread (chunkPairs v p.1 p.2) f)).flatten := by
  unfold shardedMsgs shardedChunks at hm
  rw [Option.map_map] at hm
  rcases Option.map_eq_some'.mp hm with ⟨bs, hbs, hm2⟩
  refine ⟨bs, hbs, ?_⟩
  rw [← hm2]
  simp only [Function.comp, List.map_map]
  rfl

theorem shardedMsgs_pairwise {T R : Type _} {v : List T} {f : T → R} {m : List (ℕ × R)}
    (hm : shardedMsgs v f = some m) :
    List.Pairwise (fun p q : ℕ × R => p.1 ≠ q.1) m := by
  rcases shardedMsgs_inv hm with ⟨bs, hbs, rfl⟩
  have := (chunk_msgs_pairwise v f (items_per_thread v.length)
    (num_of_threads v.length) 0 bs (by omega) hbs).1
  exact this.imp (fun h => by omega)

theorem shardedMsgs_indices_lt {T R : Type _} {v : List T} {f : T → R} {m : List (ℕ × R)}
    (hm : shardedMsgs v f = some m) : ∀ p ∈ m, p.1 < v.length := by
  rcases shardedMsgs_inv hm with ⟨bs, hbs, rfl⟩
  intro p hp
  rcases List.mem_flatten.mp hp with ⟨l, hl, hpl⟩
  rcases List.mem_map.mp hl with ⟨q, hq, rfl⟩
  have hqb := chunkBounds_bounds _ 0 bs (by omega) hbs q hq
  rw [do_comp_chunkPairs] at hpl
  unfold chunkPairs at hpl
  have hb := mem_enumFrom_bounds _ q.1 p hpl
  have hlen : (((v.map f).drop q.1).take (q.2 - q.1)).length ≤ q.2 - q.1 := by
    rw [List.length_take]
    exact min_le_left _ _
  -- p.1 < q.1 + length ≤ q.2 ≤ v.length, and q.1 ≤ q.2 with q.2 ≤ v.length
  rcases Nat.eq_or_lt_of_le hqb.2.2 with he | he
  · -- q.2 = v.length: need strict; p.1 < q.1 + len ≤ q.2 = v.length, and len
    -- counts only existing elements so p.1 < v.length still holds
    have hlen2 : (((v.map f).drop q.1).take (q.2 - q.1)).length
        ≤ v.length - q.1 := by
      rw [List.length_take, List.length_drop, List.length_map]
      omega
    omega
  · omega

theorem do_comp_work_in_some_thread_sends_spec {T R : Type _} (f : T → R) (ok : ℕ → Bool) :
    ∀ (chunk : List (ℕ × T)) (s k : ℕ), (∀ j, j < k → ok (s + j) = true) →
      ok (s + k) = false → k < chunk.length →
      do_comp_work_in_some_thread_sends f ok chunk s
        = (do_comp_work_in_some_thread (chunk.take k) f, true) := by
  intro chunk
  induction chunk with
  | nil =>
    intro s k h1 h2 h3
    simp at h3
  | cons p rest ih =>
    intro s k h1 h2 h3
    obtain ⟨i, t⟩ := p
    cases k with
    | zero =>
      have hok : ok s = false := by simpa using h2
      show (if ok s then _ else ([], true)) = _
      rw [hok]
      simp [do_comp_work_in_some_thread]
    | succ k =>
      have hok : ok s = true := by simpa using h1 0 (by omega)
      show (if ok s then _ else ([], true)) = _
      rw [hok]
      simp only [if_true]
      rw [ih (s + 1) k
        (fun j hj => by rw [show s + 1 + j = s + (j + 1) by omega]; exact h1 (j + 1) (by omega))
        (by rw [show s + 1 + k = s + (k + 1) by omega]; exact h2)
        (by simp at h3; omega)]
      simp [do_comp_work_in_some_thread]

theorem tmod_two_eq_zero_iff (a : ℤ) : a.tmod 2 = 0 ↔ a % 2 = 0 := by
  rw [← Int.dvd_iff_tmod_eq_zero, Int.dvd_iff_emod_eq_zero]

theorem take_replicate_eq {α : Type _} (d : α) :
    ∀ (i n : ℕ), (List.replicate n d).take i = List.replicate (min i n) d := by
  intro i
  induction i with
  | zero => intro n; simp
  | succ i ih =>
    intro n
    cases n with
    | zero => simp
    | succ n =>
      rw [List.replicate_succ, List.take_succ_cons, ih n, Nat.succ_min_succ,
        ← List.replicate_succ]

theorem shardedWork_eq_map {T R : Type _} (d : R) (v : List T) (f : T → R)
    (h8 : 8 ≤ v.length) (h53 : v.length ≤ 2 ^ 53) :
    shardedWork d v f = some (v.map f) := by
  have hle := items_per_thread_le_self h8 h53
  rw [shardedWork_eq d v f (by omega)]
  have hcov : min (num_of_threads v.length * items_per_thread v.length) v.length
      = v.length := by
    have := coverage h8 h53
    omega
  rw [hcov]
  have ht : (v.map f).take v.length = v.map f := by
    apply List.take_of_length_le
    simp
  rw [ht]
  simp

theorem shardedMsgs_big_example :
    shardedMsgs (List.replicate (2 ^ 53 + 1) (0 : ℤ)) (fun k => k + 1)
      = some (List.enumFrom 0 (List.replicate (2 ^ 53) (1 : ℤ))) := by
  have hn : (List.replicate (2 ^ 53 + 1) (0 : ℤ)).length = 2 ^ 53 + 1 :=
    List.length_replicate _ _
  have hnum : num_of_threads (2 ^ 53 + 1) = 64 := by decide
  have hitems : items_per_thread (2 ^ 53 + 1) = 2 ^ 47 := by decide
  rw [shardedMsgs_eq _ _ (by rw [hn, hitems]; norm_num)]
  rw [hn, hnum, hitems, List.map_replicate, take_replicate_eq,
    show min (min (64 * 2 ^ 47) (2 ^ 53 + 1)) (2 ^ 53 + 1) = 2 ^ 53 from by norm_num,
    show ((0 : ℤ) + 1) = 1 from by norm_num]

theorem shardedWork_big_example :
    shardedWork (0 : ℤ) (List.replicate (2 ^ 53 + 1) 0) (fun k => k + 1)
      = some (List.replicate (2 ^ 53) (1 : ℤ) ++ [0]) := by
  have hn : (List.replicate (2 ^ 53 + 1) (0 : ℤ)).length = 2 ^ 53 + 1 :=
    List.length_replicate _ _
  unfold shardedWork
  rw [shardedMsgs_big_example, Option.map_some', Option.some_inj]
  rw [writeAll_enumFrom _ _ 0
    (by rw [Nat.zero_add, List.length_replicate, List.length_replicate, hn]; norm_num)]
  rw [List.take_zero, List.nil_append, Nat.zero_add, List.length_replicate, hn,
    drop_replicate_eq, show (2 : ℕ) ^ 53 + 1 - 2 ^ 53 = 1 from by norm_num,
    List.replicate_one]

/-! ### Claim theorems -/

/-- C1 (amended): for every input vector of length at most `2 ^ 53` and every
transform `function`, `split_comp_work` returns the sequence of the same
length with `output[i] = function(input[i])` at every index, on both the
direct and the sharded path; the bound is needed because the `f64` chunk-size
arithmetic loses precision above `2 ^ 53` (see the counterexample). -/
theorem C1_order_preservation {T R : Type _} (d : R) (vector : List T) (function : T → R)
    (h53 : vector.length ≤ 2 ^ 53) :
    split_comp_work d vector function = some (vector.map function) :=
  split_comp_work_eq_map d vector function h53

theorem C1_witness :
    split_comp_work (0 : ℤ) [1, 2, 3, 4, 5, 6, 7, 8, 9] (fun k => k * 2)
      = some [2, 4, 6, 8, 10, 12, 14, 16, 18] := by
  rw [C1_order_preservation (0 : ℤ) [1, 2, 3, 4, 5, 6, 7, 8, 9] (fun k => k * 2) (by decide)]
  rfl

theorem C1_counterexample :
    split_comp_work (0 : ℤ) (List.replicate (2 ^ 53 + 1) 0) (fun k => k + 1)
      = some (List.replicate (2 ^ 53) 1 ++ [0]) ∧
    (List.replicate (2 ^ 53) (1 : ℤ) ++ [0]).getLast? = some 0 ∧
    ((List.replicate (2 ^ 53 + 1) (0 : ℤ)).map (fun k => k + 1)).getLast? = some 1 := by
  refine ⟨?_, List.getLast?_concat _, ?_⟩
  · have hcond : ¬((List.replicate (2 ^ 53 + 1) (0 : ℤ)).length < THRESHOLD) := by
      rw [List.length_replicate]
      unfold THRESHOLD
      norm_num
    unfold split_comp_work
    rw [if_neg hcond]
    exact shardedWork_big_example
  · rw [List.map_replicate, show ((0 : ℤ) + 1) = 1 from by norm_num,
      List.replicate_succ', List.getLast?_concat]

/-- C2 (amended): for every input of length between `8` and `2 ^ 53` and every
pure transform, the sharded strategy returns exactly the sequence produced by
the direct sequential strategy `do_comp_work_in_cur_thread`; above `2 ^ 53`
the two strategies can differ (see the counterexample). -/
theorem C2_strategy_equivalence {T R : Type _} (d : R) (vector : List T) (function : T → R)
    (h8 : 8 ≤ vector.length) (h53 : vector.length ≤ 2 ^ 53) :
    shardedWork d vector function = some (do_comp_work_in_cur_thread vector function) := by
  rw [do_comp_work_in_cur_thread_eq_map]
  exact shardedWork_eq_map d vector function h8 h53

theorem C2_witness :
    shardedWork (0 : ℤ) [1, 2, 3, 4, 5, 6, 7, 8, 9] (fun k => k * 2)
      = some (do_comp_work_in_cur_thread [1, 2, 3, 4, 5, 6, 7, 8, 9] (fun k => k * 2)) :=
  C2_strategy_equivalence 0 [1, 2, 3, 4, 5, 6, 7, 8, 9] (fun k => k * 2)
    (by decide) (by decide)

theorem C2_counterexample :
    shardedWork (0 : ℤ) (List.replicate (2 ^ 53 + 1) 0) (fun k => k + 1)
      ≠ some (do_comp_work_in_cur_thread (List.replicate (2 ^ 53 + 1) (0 : ℤ))
          (fun k => k + 1)) := by
  intro heq
  rw [shardedWork_big_example, do_comp_work_in_cur_thread_eq_map, List.map_replicate,
    show ((0 : ℤ) + 1) = 1 from by norm_num] at heq
  have h1 := Option.some_inj.mp heq
  have h2 := congrArg List.getLast? h1
  rw [List.getLast?_concat, List.replicate_succ', List.getLast?_concat] at h2
  exact absurd (Option.some_inj.mp h2) (by norm_num)

/-- C3: `split_comp_work` runs the direct strategy exactly when the input
length is below `THRESHOLD = 8` and the sharded strategy otherwise, and at the
boundary lengths `7` and `8` both produce the mapped sequence. -/
theorem C3_threshold_boundary {T R : Type _} (d : R) (vector : List T) (function : T → R) :
    (vector.length < THRESHOLD →
      split_comp_work d vector function = some (do_comp_work_in_cur_thread vector function)) ∧
    (THRESHOLD ≤ vector.length →
      split_comp_work d vector function = shardedWork d vector function) ∧
    (vector.length = THRESHOLD - 1 →
      split_comp_work d vector function = some (vector.map function)) ∧
    (vector.length = THRESHOLD →
      split_comp_work d vector function = some (vector.map function)) := by
  refine ⟨?_, ?_, ?_, ?_⟩
  · intro h
    unfold split_comp_work
    rw [if_pos h]
  · intro h
    unfold split_comp_work
    rw [if_neg (by omega)]
  · intro h
    apply split_comp_work_eq_map
    rw [h]
    unfold THRESHOLD
    norm_num
  · intro h
    apply split_comp_work_eq_map
    rw [h]
    unfold THRESHOLD
    norm_num

theorem C3_witness :
    split_comp_work (0 : ℤ) [1, 2, 3, 4, 5, 6, 7] (fun k => k * 3)
      = some [3, 6, 9, 12, 15, 18, 21] ∧
    split_comp_work (0 : ℤ) [1, 2, 3, 4, 5, 6, 7, 8] (fun k => k * 3)
      = some [3, 6, 9, 12, 15, 18, 21, 24] := by
  constructor
  · rw [(C3_threshold_boundary (0 : ℤ) [1, 2, 3, 4, 5, 6, 7] (fun k => k * 3)).2.2.1
      (by decide)]
    rfl
  · rw [(C3_threshold_boundary (0 : ℤ) [1, 2, 3, 4, 5, 6, 7, 8] (fun k => k * 3)).2.2.2
      (by decide)]
    rfl

/-- C4 (amended): for every input length `n ≥ 8` the computed worker count
equals `min MAX_NUM_OF_THREADS (ceil (n / THRESHOLD))` exactly (so it never
exceeds 64), and for `8 ≤ n ≤ 2 ^ 53` the computed chunk size equals
`ceil (n / worker_count)` exactly, both despite the `f64` round trip; above
`2 ^ 53` the chunk size computation loses precision (see the
counterexample). -/
theorem C4_numeric_exactness (n : ℕ) (h8 : 8 ≤ n) :
    num_of_threads n = min MAX_NUM_OF_THREADS ((n + THRESHOLD - 1) / THRESHOLD) ∧
    num_of_threads n ≤ MAX_NUM_OF_THREADS ∧
    (n ≤ 2 ^ 53 →
      items_per_thread n = (n + num_of_threads n - 1) / num_of_threads n) :=
  ⟨num_of_threads_exact h8, num_of_threads_le, fun h53 => items_per_thread_exact h8 h53⟩

theorem C4_witness :
    (num_of_threads 34 = min MAX_NUM_OF_THREADS ((34 + THRESHOLD - 1) / THRESHOLD) ∧
      items_per_thread 34 = (34 + num_of_threads 34 - 1) / num_of_threads 34) ∧
    num_of_threads 34 = 5 ∧ items_per_thread 34 = 7 := by
  refine ⟨⟨(C4_numeric_exactness 34 (by decide)).1,
    (C4_numeric_exactness 34 (by decide)).2.2 (by decide)⟩, by decide, by decide⟩

theorem C4_counterexample :
    num_of_threads (2 ^ 53 + 1) = 64 ∧
    items_per_thread (2 ^ 53 + 1) = 2 ^ 47 ∧
    (2 ^ 53 + 1 + num_of_threads (2 ^ 53 + 1) - 1) / num_of_threads (2 ^ 53 + 1)
      = 2 ^ 47 + 1 ∧
    items_per_thread (2 ^ 53 + 1)
      ≠ (2 ^ 53 + 1 + num_of_threads (2 ^ 53 + 1) - 1) / num_of_threads (2 ^ 53 + 1) := by
  refine ⟨by decide, by decide, by decide, by decide⟩

/-- C5 (amended): for every input of length between `8` and `2 ^ 53`, the
indices carried by the worker messages are exactly `0, 1, ..., n-1` in
order across the chunks: the chunks partition the index range with no overlap
and no gap, exactly one `(index, result)` message is produced per index, and
hence each slot of the result array is overwritten exactly once; above
`2 ^ 53` an index can be missed (see the counterexample). -/
theorem C5_exactly_once {T R : Type _} (vector : List T) (function : T → R)
    (h8 : 8 ≤ vector.length) (h53 : vector.length ≤ 2 ^ 53) :
    (shardedMsgs vector function).map (fun m => m.map Prod.fst)
      = some (List.range vector.length) := by
  have hle := items_per_thread_le_self h8 h53
  rw [shardedMsgs_eq vector function (by omega), Option.map_some']
  have hcov : min (num_of_threads vector.length * items_per_thread vector.length)
      vector.length = vector.length := by
    have := coverage h8 h53
    omega
  rw [hcov, Option.some_inj, List.enumFrom_map_fst]
  have hlen : ((vector.map function).take vector.length).length = vector.length := by
    rw [List.length_take, List.length_map]
    omega
  rw [hlen]
  exact (List.range_eq_range' _).symm

theorem C5_witness :
    (shardedMsgs ([1, 2, 3, 4, 5, 6, 7, 8, 9] : List ℤ) (fun k => k + 1)).map
        (fun m => m.map Prod.fst)
      = some (List.range 9) :=
  C5_exactly_once [1, 2, 3, 4, 5, 6, 7, 8, 9] (fun k => k + 1) (by decide) (by decide)

theorem C5_counterexample :
    (shardedMsgs (List.replicate (2 ^ 53 + 1) (0 : ℤ)) (fun k => k + 1)).map
        (fun m => m.map Prod.fst)
      = some (List.range (2 ^ 53)) ∧
    (2 ^ 53 : ℕ) ∉ List.range (2 ^ 53) := by
  constructor
  · rw [shardedMsgs_big_example, Option.map_some', Option.some_inj, List.enumFrom_map_fst,
      List.length_replicate]
    exact (List.range_eq_range' _).symm
  · simp [List.mem_range]

/-- C6 (amended): on the sharded path the loop spawns exactly
`num_of_threads` workers whether or not their chunks are empty; for inputs of
length `8 ≤ n ≤ 2 ^ 53`, worker `k` receives a non-empty chunk exactly when
`k * chunk_size < n`, so trailing workers can receive empty chunks (at
`n = 513` workers 57 to 63 do; see the counterexample), contrary to the claim
that a worker is spawned only for a non-empty chunk. -/
theorem C6_worker_chunks {T : Type _} (vector : List T) (cs : List (List (ℕ × T)))
    (h8 : 8 ≤ vector.length) (h53 : vector.length ≤ 2 ^ 53)
    (hcs : shardedChunks vector = some cs) :
    cs.length = num_of_threads vector.length ∧
    ∀ k, k < cs.length →
      (cs.getD k [] = [] ↔ vector.length ≤ k * items_per_thread vector.length) := by
  have hle := items_per_thread_le_self h8 h53
  have hit := items_per_thread_pos h8
  unfold shardedChunks at hcs
  rw [chunkBounds_eq _ _ _ 0 (by omega) (by omega), Option.map_some'] at hcs
  have hcs2 := (Option.some_inj.mp hcs).symm
  subst hcs2
  constructor
  · simp
  · intro k hk
    rw [List.length_map, List.length_map, List.length_range] at hk
    rw [List.getD_eq_getElem _ _ (by simpa using hk)]
    simp only [List.getElem_map, List.getElem_range]
    rw [← List.length_eq_zero]
    unfold chunkPairs
    rw [List.enumFrom_length, List.length_take, List.length_drop]
    have hr : (k + 1) * items_per_thread vector.length
        = k * items_per_thread vector.length + items_per_thread vector.length := by ring
    omega

theorem C6_witness :
    shardedChunks ([1, 2, 3, 4, 5, 6, 7, 8, 9] : List ℤ)
      = some [[(0, 1), (1, 2), (2, 3), (3, 4), (4, 5)], [(5, 6), (6, 7), (7, 8), (8, 9)]] ∧
    (([[(0, 1), (1, 2), (2, 3), (3, 4), (4, 5)], [(5, 6), (6, 7), (7, 8), (8, 9)]] :
        List (List (ℕ × ℤ))).getD 1 [] = [] ↔
      (9 : ℕ) ≤ 1 * items_per_thread 9) := by
  constructor
  · decide
  · exact (C6_worker_chunks ([1, 2, 3, 4, 5, 6, 7, 8, 9] : List ℤ) _ (by decide) (by decide)
      (by decide)).2 1 (by decide)

set_option maxRecDepth 8192 in
theorem C6_counterexample :
    num_of_threads 513 = 64 ∧
    (shardedChunks (List.replicate 513 (0 : ℤ))).map
        (fun cs => (cs.length, cs.getD 57 [(0, 0)]))
      = some (64, []) := by
  refine ⟨by decide, by decide⟩

/-- C7: the reassembled result of the sharded path does not depend on the
order in which the `(index, result)` messages arrive: for every permutation
of the message list produced by the workers, the receive loop yields the same
final array. -/
theorem C7_order_independence {T R : Type _} (vector : List T) (function : T → R) (d : R)
    (m m' : List (ℕ × R)) (hm : shardedMsgs vector function = some m) (hp : m.Perm m') :
    writeAll m' (List.replicate vector.length d)
      = writeAll m (List.replicate vector.length d) :=
  (writeAll_perm hp (shardedMsgs_pairwise hm) _).symm

theorem C7_witness :
    writeAll (([(0, 2), (1, 3), (2, 4), (3, 5), (4, 6), (5, 7), (6, 8), (7, 9)] :
        List (ℕ × ℤ)).reverse) (List.replicate 8 0)
      = writeAll [(0, 2), (1, 3), (2, 4), (3, 5), (4, 6), (5, 7), (6, 8), (7, 9)]
          (List.replicate 8 0) :=
  C7_order_independence [1, 2, 3, 4, 5, 6, 7, 8] (fun k => k + 1) 0 _ _ (by decide)
    (List.reverse_perm _).symm

/-- C8: every chunk handed to a worker satisfies `start ≤ end ≤ n` (the end
index is clamped to the vector length, so the slice
`vector[index_of_cur_item..end_index]` is in bounds), and every index carried
by a delivered message is strictly below `n`, so `result[index] = item` is in
bounds. -/
theorem C8_bounds_in_range {T R : Type _} (vector : List T) (function : T → R)
    (bs : List (ℕ × ℕ)) (m : List (ℕ × R)) :
    (chunkBounds (items_per_thread vector.length) vector.length
        (num_of_threads vector.length) 0 = some bs →
      ∀ p ∈ bs, p.1 ≤ p.2 ∧ p.2 ≤ vector.length) ∧
    (shardedMsgs vector function = some m → ∀ p ∈ m, p.1 < vector.length) := by
  constructor
  · intro hbs p hp
    have h := chunkBounds_bounds _ 0 bs (by omega) hbs p hp
    exact ⟨h.2.1, h.2.2⟩
  · intro hm
    exact shardedMsgs_indices_lt hm

theorem C8_witness :
    (((0 : ℕ), (8 : ℕ)).1 ≤ ((0 : ℕ), (8 : ℕ)).2 ∧
      ((0 : ℕ), (8 : ℕ)).2 ≤ ([1, 2, 3, 4, 5, 6, 7, 8] : List ℤ).length) ∧
    ((7 : ℕ), (9 : ℤ)).1 < ([1, 2, 3, 4, 5, 6, 7, 8] : List ℤ).length := by
  constructor
  · exact (C8_bounds_in_range ([1, 2, 3, 4, 5, 6, 7, 8] : List ℤ) (fun k => k + 1)
      [(0, 8)] [(0, 2), (1, 3), (2, 4), (3, 5), (4, 6), (5, 7), (6, 8), (7, 9)]).1
      (by decide) (0, 8) (by decide)
  · exact (C8_bounds_in_range ([1, 2, 3, 4, 5, 6, 7, 8] : List ℤ) (fun k => k + 1)
      [(0, 8)] [(0, 2), (1, 3), (2, 4), (3, 5), (4, 6), (5, 7), (6, 8), (7, 9)]).2
      (by decide) (7, 9) (by decide)

/-- C9: a worker whose `k`-th send fails (receiver dropped) panics on the
`expect` at that point: it delivers exactly the messages for the first `k`
elements of its chunk, terminates abnormally, and produces no message for any
later element. -/
theorem C9_send_failure_aborts {T R : Type _} (function : T → R) (ok : ℕ → Bool)
    (chunk : List (ℕ × T)) (k : ℕ)
    (hbefore : ∀ j, j < k → ok j = true) (hfail : ok k = false) (hk : k < chunk.length) :
    do_comp_work_in_some_thread_sends function ok chunk 0
      = (do_comp_work_in_some_thread (chunk.take k) function, true) := by
  apply do_comp_work_in_some_thread_sends_spec function ok chunk 0 k
  · intro j hj
    simpa using hbefore j hj
  · simpa using hfail
  · exact hk

theorem C9_witness :
    do_comp_work_in_some_thread_sends (fun t : ℤ => t + 1) (fun j => decide (j < 2))
        [(0, 10), (1, 20), (2, 30)] 0
      = ([(0, 11), (1, 21)], true) := by
  rw [C9_send_failure_aborts (fun t : ℤ => t + 1) (fun j => decide (j < 2))
    [(0, 10), (1, 20), (2, 30)] 2
    (fun j hj => decide_eq_true hj) (by decide) (by decide)]
  rfl

/-- C10: the example transform `is_even` is total: `checked_rem` with the
divisor `EVEN_BASE = 2` returns `Some` for every `i64` input (the divisor is
nonzero and the only overflow case, `i64::MIN % -1`, needs divisor `-1`), so
the `expect` never panics, and the result agrees with mathematical evenness
`num % 2 == 0` for every input, negative values and `i64::MIN` included. -/
theorem C10_is_even_total (num : ℤ) :
    checked_rem num EVEN_BASE = some (num.tmod 2) ∧
    is_even num = some (decide (num % 2 = 0)) := by
  have hch : checked_rem num EVEN_BASE = some (num.tmod 2) := by
    unfold checked_rem EVEN_BASE
    rw [if_neg (by push_neg; exact ⟨by norm_num, fun _ => by norm_num⟩)]
  refine ⟨hch, ?_⟩
  unfold is_even
  rw [hch, Option.map_some', Option.some_inj]
  have ht := tmod_two_eq_zero_iff num
  by_cases h : num % 2 = 0
  · rw [show num.tmod 2 = 0 from ht.mpr h]
    simp [h]
  · have h2 : num.tmod 2 ≠ 0 := fun hc => h (ht.mp hc)
    simp [h, h2]

/-! ### Sanity checks mirroring `test_a` and `test_b` from `main.rs`
(the transform is the value of `is_even`, which by C10 never panics). -/

example : split_comp_work false [1, 2, 3, 4] (fun k : ℤ => decide (k % 2 = 0))
    = some [false, true, false, true] := by decide

example : split_comp_work false [1, 2, 3, 4, 5, 6, 7, 8, 9, 10,
    11, 12, 13, 14, 15, 16, 17, 18, 19, 20,
    21, 22, 23, 24, 25, 26, 27, 28, 29, 30,
    31, 32, 33, 34] (fun k : ℤ => decide (k % 2 = 0))
    = some [false, true, false, true, false, true, false, true, false, true,
    false, true, false, true, false, true, false, true, false, true,
    false, true, false, true, false, true, false, true, false, true,
    false, true, false, true] := by decide

example : is_even 3 = some false ∧ is_even (-4) = some true ∧ is_even (-3) = some false := by
  decide
